import Mathlib

/-!
Verification of the Collatz Mapora engine (`mapora_engine.py`).

The engine models a residue class `{ modulus * k + residue }` as a state
(`MaporaStack`) carrying a derivation label and a depth counter, and defines

* `MaporaStack.get_next_state` — the three-case transition rule
  (even residue / even modulus: halve; even residue / odd modulus:
  ambiguous split; odd residue: the `3n+1` step), and
* `get_stability_ratio` — a budgeted breadth-first traversal from a root
  state, counting deterministic merges (`straight_paths`) and ambiguous
  bifurcations (`splits`), returning `50` when no split was observed and
  `straight_paths / splits` otherwise.

The embedding mirrors the Python source: numbers are unbounded
(Python ints), modelled as `Nat` for modulus/residue/depth and counters,
`Int` for the node budget (which the source compares with `nodes` using
`<`, so a non-positive budget is meaningful).  The `while queue and
nodes < depth_limit` loop is embedded as a fuel recursion `runLoop` with
fuel `depth_limit.toNat`; since every iteration of the source loop
increments `nodes` by exactly one and the loop requires
`nodes < depth_limit`, this fuel is exactly enough — the lemma
`runLoop_fuel_irrel` below proves that any larger fuel computes the
same result, so the fuel is an artifact of totality, not a semantic
truncation.  The float result of the source is modelled as `Rat`
(the division `straight_paths / splits` taken exactly).
-/

/-- A residue class `modulus * k + residue` with a derivation label and a
depth counter; `MaporaStack` in `mapora_engine.py` (fields `m`, `r`,
`id`, `layer`). -/
structure MaporaStack where
  m : Nat
  r : Nat
  id : String
  layer : Nat
  deriving DecidableEq, Repr

/-- `MaporaStack.get_next_state` from the source: even residue and even
modulus halve both; even residue and odd modulus is ambiguous (`none`);
odd residue applies the `3n+1` step to the whole class. -/
def MaporaStack.get_next_state (s : MaporaStack) : Option MaporaStack :=
  if s.r % 2 = 0 then
    if s.m % 2 = 0 then
      some ⟨s.m / 2, s.r / 2, s.id ++ "D", s.layer + 1⟩
    else
      none
  else
    some ⟨3 * s.m, 3 * s.r + 1, s.id ++ "M", s.layer + 1⟩

/-- First child synthesized on an ambiguous split in `get_stability_ratio`
(source lines 77–78): doubled modulus, same residue, label `+ "A"`. -/
def childA (c : MaporaStack) : MaporaStack :=
  ⟨c.m * 2, c.r, c.id ++ "A", c.layer + 1⟩

/-- Second child synthesized on an ambiguous split in `get_stability_ratio`
(source lines 77, 79): doubled modulus, residue shifted by the old
modulus, label `+ "B"`. -/
def childB (c : MaporaStack) : MaporaStack :=
  ⟨c.m * 2, c.r + c.m, c.id ++ "B", c.layer + 1⟩

/-- The mutable state of the traversal loop in `get_stability_ratio`:
the FIFO frontier and the three aggregate counters. -/
structure TravState where
  queue : List MaporaStack
  straight_paths : Nat
  splits : Nat
  nodes : Nat
  deriving DecidableEq, Repr

/-- One iteration of the `while` loop body of `get_stability_ratio`
(source lines 61–81), assuming the queue is non-empty: dequeue, apply the
terminal check (`r == 1 and m % 2 == 0`), otherwise take the transition,
enqueueing the deterministic successor or the two split children; `nodes`
is incremented in every branch.  On an empty queue it is the identity
(the loop guard prevents that case in `runLoop`). -/
def stepTrav (s : TravState) : TravState :=
  match s.queue with
  | [] => s
  | curr :: rest =>
    if curr.r = 1 ∧ curr.m % 2 = 0 then
      { s with queue := rest, nodes := s.nodes + 1 }
    else
      match curr.get_next_state with
      | some nxt =>
        { s with queue := rest ++ [nxt],
                 straight_paths := s.straight_paths + 1,
                 nodes := s.nodes + 1 }
      | none =>
        { s with queue := rest ++ [childA curr, childB curr],
                 splits := s.splits + 1,
                 nodes := s.nodes + 1 }

/-- The `while queue and nodes < depth_limit` loop of
`get_stability_ratio`, as a fuel recursion.  The guard is checked before
each iteration exactly as in the source; the fuel only bounds the
recursion depth and is irrelevant once it is at least
`depth_limit - nodes` (`runLoop_fuel_irrel`). -/
def runLoop : Nat → Int → TravState → TravState
  | 0, _, s => s
  | fuel + 1, budget, s =>
    if s.queue ≠ [] ∧ (s.nodes : Int) < budget then
      runLoop fuel budget (stepTrav s)
    else s

/-- The initial traversal state of `get_stability_ratio` (source lines
55–58): a single root state with label `"ROOT"` and depth `0`, all
counters zero. -/
def initState (modulus residue : Nat) : TravState :=
  ⟨[⟨modulus, residue, "ROOT", 0⟩], 0, 0, 0⟩

/-- Run the full traversal loop of `get_stability_ratio` from the initial
state.  Fuel `depth_limit.toNat` is exactly the loop bound: `nodes`
starts at `0` and increases by one per iteration, so after
`depth_limit.toNat` iterations the guard `nodes < depth_limit` fails. -/
def runTraversal (modulus residue : Nat) (depth_limit : Int) : TravState :=
  runLoop depth_limit.toNat depth_limit (initState modulus residue)

/-- `get_stability_ratio` from the source: run the budgeted traversal,
then return `50` if no split was observed, else the exact quotient
`straight_paths / splits`. -/
def get_stability_ratio (modulus residue : Nat) (depth_limit : Int) : Rat :=
  let f := runTraversal modulus residue depth_limit
  if f.splits = 0 then 50 else (f.straight_paths : Rat) / (f.splits : Rat)

/-- `stepTrav` increments `nodes` by exactly one whenever the queue is
non-empty (every branch of the loop body does `nodes += 1`). -/
theorem stepTrav_nodes (s : TravState) (h : s.queue ≠ []) :
    (stepTrav s).nodes = s.nodes + 1 := by
  unfold stepTrav
  match hq : s.queue with
  | [] => exact absurd hq h
  | curr :: rest =>
    by_cases ht : curr.r = 1 ∧ curr.m % 2 = 0
    · simp [ht]
    · simp only [if_neg ht]
      cases curr.get_next_state <;> simp

/-- If the loop guard fails, `runLoop` is the identity at any fuel. -/
theorem runLoop_of_not_lt (fuel : Nat) (budget : Int) (s : TravState)
    (h : ¬ (s.nodes : Int) < budget) : runLoop fuel budget s = s := by
  cases fuel with
  | zero => rfl
  | succ fuel =>
    unfold runLoop
    simp [h]

/-- Fuel adequacy: once the fuel is at least `budget - nodes`, adding
more fuel does not change the result of `runLoop`.  This shows
`runTraversal`'s fuel `depth_limit.toNat` faithfully realizes the
source's unbounded `while` loop. -/
theorem runLoop_fuel_irrel (fuel : Nat) :
    ∀ (extra : Nat) (budget : Int) (s : TravState),
      budget ≤ (s.nodes : Int) + fuel →
      runLoop (fuel + extra) budget s = runLoop fuel budget s := by
  induction fuel with
  | zero =>
    intro extra budget s h
    simp only [Nat.zero_add, runLoop]
    have hng : ¬ (s.nodes : Int) < budget := by
      simp only [Nat.cast_ofNat, Int.natCast_zero, Int.add_zero] at h
      omega
    rw [runLoop_of_not_lt extra budget s hng]
  | succ fuel ih =>
    intro extra budget s h
    have hsa : fuel + 1 + extra = (fuel + extra) + 1 := by omega
    rw [hsa]
    unfold runLoop
    by_cases hc : s.queue ≠ [] ∧ (s.nodes : Int) < budget
    · simp only [if_pos hc]
      apply ih
      rw [stepTrav_nodes s hc.1]
      push_cast
      push_cast at h
      omega
    · simp [if_neg hc]

/-- C7: the concrete call `stability_ratio(32, 16, 400)` halves down to
the terminal state `(modulus=2, residue=1)` with zero splits and returns
the sentinel `50.0`. -/
theorem scenario1_sentinel : get_stability_ratio 32 16 400 = 50 := by decide

/-- C1: for any state with `modulus ≥ 1` (and `residue ≥ 0`, inherent in
`Nat`), `get_next_state` follows the three-case rule: even residue and
even modulus halves both and bumps depth (merge); even residue and odd
modulus is ambiguous; odd residue maps to `(3m, 3r+1)` with depth bumped
(always a merge).  In particular `(modulus=1, residue=1)` steps to the
deterministic successor `(modulus=3, residue=4)`. -/
theorem get_next_state_cases (m r : Nat) (lbl : String) (d : Nat)
    (hpos : 1 ≤ m) :
    (r % 2 = 0 → m % 2 = 0 →
      MaporaStack.get_next_state ⟨m, r, lbl, d⟩ =
        some ⟨m / 2, r / 2, lbl ++ "D", d + 1⟩)
  ∧ (r % 2 = 0 → m % 2 = 1 →
      MaporaStack.get_next_state ⟨m, r, lbl, d⟩ = none)
  ∧ (r % 2 = 1 →
      MaporaStack.get_next_state ⟨m, r, lbl, d⟩ =
        some ⟨3 * m, 3 * r + 1, lbl ++ "M", d + 1⟩)
  ∧ MaporaStack.get_next_state ⟨1, 1, lbl, d⟩ =
      some ⟨3, 4, lbl ++ "M", d + 1⟩ := by
  refine ⟨?_, ?_, ?_, ?_⟩
  · intro hr hm
    simp [MaporaStack.get_next_state, hr, hm]
  · intro hr hm
    have hm0 : ¬ m % 2 = 0 := by omega
    simp [MaporaStack.get_next_state, hr, hm0]
  · intro hr
    have hr0 : ¬ r % 2 = 0 := by omega
    simp [MaporaStack.get_next_state, hr0]
  · norm_num [MaporaStack.get_next_state]

/-- Witness for C1 at the concrete state `(modulus=1, residue=1)`. -/
theorem get_next_state_cases_witness :
    (1 : Nat) ≤ 1 ∧
      MaporaStack.get_next_state ⟨1, 1, "ROOT", 0⟩ =
        some ⟨3, 4, "ROOT" ++ "M", 0 + 1⟩ :=
  ⟨by decide, (get_next_state_cases 1 1 "ROOT" 0 (by decide)).2.2.2⟩

/-- C2: the returned ratio is the sentinel `50` exactly when the
traversal accumulated zero splits, and otherwise the exact quotient
`straight_paths / splits`. -/
theorem stability_ratio_cases (m r : Nat) (b : Int) :
    ((runTraversal m r b).splits = 0 → get_stability_ratio m r b = 50)
  ∧ ((runTraversal m r b).splits ≠ 0 →
      get_stability_ratio m r b =
        ((runTraversal m r b).straight_paths : Rat) /
          ((runTraversal m r b).splits : Rat)) := by
  unfold get_stability_ratio
  constructor
  · intro h
    simp [h]
  · intro h
    simp [h]

/-- Witness for C2 at `(modulus=1, residue=0, budget=1)`: the root splits
immediately, so the quotient branch applies and returns `0 / 1 = 0`. -/
theorem stability_ratio_cases_witness :
    (runTraversal 1 0 1).splits ≠ 0 ∧
      get_stability_ratio 1 0 1 =
        ((runTraversal 1 0 1).straight_paths : Rat) /
          ((runTraversal 1 0 1).splits : Rat) :=
  ⟨by decide, (stability_ratio_cases 1 0 1).2 (by decide)⟩

/-- `get_next_state` is `none` exactly on the ambiguous case: even
residue with odd modulus. -/
theorem get_next_state_none (c : MaporaStack)
    (hr : c.r % 2 = 0) (hm : c.m % 2 = 1) : c.get_next_state = none := by
  have hm0 : ¬ c.m % 2 = 0 := by omega
  simp [MaporaStack.get_next_state, hr, hm0]

/-- C3: dequeuing an ambiguous state `(m, r)` increments `splits` by one
and appends exactly the two children `childA = (2m, r, depth+1)` then
`childB = (2m, r+m, depth+1)` to the frontier; their residues differ by
`m` and both have modulus `2m`. -/
theorem split_step_children (curr : MaporaStack) (rest : List MaporaStack)
    (a b c : Nat) (hr : curr.r % 2 = 0) (hm : curr.m % 2 = 1) :
    stepTrav ⟨curr :: rest, a, b, c⟩ =
      ⟨rest ++ [childA curr, childB curr], a, b + 1, c + 1⟩
  ∧ (childA curr).m = 2 * curr.m ∧ (childB curr).m = 2 * curr.m
  ∧ (childA curr).r = curr.r ∧ (childB curr).r = curr.r + curr.m
  ∧ (childA curr).layer = curr.layer + 1
  ∧ (childB curr).layer = curr.layer + 1
  ∧ (childB curr).r - (childA curr).r = curr.m := by
  have hterm : ¬ (curr.r = 1 ∧ curr.m % 2 = 0) := by omega
  have hnxt := get_next_state_none curr hr hm
  refine ⟨?_, ?_, ?_, ?_, ?_, ?_, ?_, ?_⟩
  · simp [stepTrav, hterm, hnxt]
  · simp [childA, Nat.mul_comm]
  · simp [childB, Nat.mul_comm]
  · rfl
  · rfl
  · rfl
  · rfl
  · simp [childA, childB]

/-- Witness for C3 at the ambiguous state `(modulus=3, residue=2)`. -/
theorem split_step_children_witness :
    stepTrav ⟨[⟨3, 2, "ROOT", 0⟩], 0, 0, 0⟩ =
      ⟨[childA ⟨3, 2, "ROOT", 0⟩, childB ⟨3, 2, "ROOT", 0⟩], 0, 1, 1⟩ ∧
    (childB ⟨3, 2, "ROOT", 0⟩).r - (childA ⟨3, 2, "ROOT", 0⟩).r = 3 := by
  have h := split_step_children ⟨3, 2, "ROOT", 0⟩ [] 0 0 0 (by decide) (by decide)
  exact ⟨h.1, h.2.2.2.2.2.2.2⟩

/-- Along the loop, `nodes` stays bounded by the budget: if it starts
`≤ budget`, it ends `≤ budget` (the guard admits an iteration only when
`nodes < budget`, and each iteration adds exactly one). -/
theorem runLoop_nodes_le (fuel : Nat) :
    ∀ (budget : Int) (s : TravState), (s.nodes : Int) ≤ budget →
      ((runLoop fuel budget s).nodes : Int) ≤ budget := by
  induction fuel with
  | zero =>
    intro budget s h
    exact h
  | succ fuel ih =>
    intro budget s h
    unfold runLoop
    by_cases hc : s.queue ≠ [] ∧ (s.nodes : Int) < budget
    · rw [if_pos hc]
      apply ih
      rw [stepTrav_nodes s hc.1]
      push_cast
      omega
    · rw [if_neg hc]
      exact h

/-- C4: with a positive budget the traversal terminates (it is a total
function, with the loop running at most `node_budget` iterations since
`nodes` starts at `0` and grows by one per iteration under the guard
`nodes < node_budget`), and afterwards `nodes_processed` never exceeds
the budget. -/
theorem budget_respected (m r : Nat) (b : Int) (h : 0 < b) :
    ((runTraversal m r b).nodes : Int) ≤ b := by
  apply runLoop_nodes_le
  simp [initState]
  omega

/-- Witness for C4 at the concrete call `(32, 16, 400)`. -/
theorem budget_respected_witness :
    (0 : Int) < 400 ∧ ((runTraversal 32 16 400).nodes : Int) ≤ 400 :=
  ⟨by decide, budget_respected 32 16 400 (by decide)⟩

/-- C5: dequeuing a terminal state (`residue = 1`, even modulus) only
increments `nodes`: no successor is enqueued and `straight_paths` and
`splits` are left unchanged. -/
theorem terminal_step (curr : MaporaStack) (rest : List MaporaStack)
    (a b c : Nat) (hr : curr.r = 1) (hm : curr.m % 2 = 0) :
    stepTrav ⟨curr :: rest, a, b, c⟩ = ⟨rest, a, b, c + 1⟩ := by
  simp [stepTrav, hr, hm]

/-- Witness for C5 at the terminal state `(modulus=2, residue=1)`. -/
theorem terminal_step_witness :
    stepTrav ⟨[⟨2, 1, "ROOT", 4⟩], 5, 6, 7⟩ = ⟨[], 5, 6, 8⟩ :=
  terminal_step ⟨2, 1, "ROOT", 4⟩ [] 5 6 7 rfl (by decide)

/-- Any deterministic successor produced by `get_next_state` has depth
exactly one more than its parent. -/
theorem get_next_state_layer (s t : MaporaStack)
    (h : s.get_next_state = some t) : t.layer = s.layer + 1 := by
  unfold MaporaStack.get_next_state at h
  split at h
  · split at h
    · injection h with h
      subst h
      rfl
    · exact Option.noConfusion h
  · injection h with h
    subst h
    rfl

/-- C6: in any traversal step, every state of the new frontier is either
carried over from the old frontier or was derived in this step with
depth exactly the dequeued parent's depth plus one — covering both the
deterministic successor and the two split children. -/
theorem depth_plus_one (curr : MaporaStack) (rest : List MaporaStack)
    (a b c : Nat) :
    ∀ t ∈ (stepTrav ⟨curr :: rest, a, b, c⟩).queue,
      t ∈ rest ∨ t.layer = curr.layer + 1 := by
  intro t ht
  by_cases hterm : curr.r = 1 ∧ curr.m % 2 = 0
  · simp only [stepTrav, if_pos hterm] at ht
    exact Or.inl ht
  · simp only [stepTrav, if_neg hterm] at ht
    cases hnxt : curr.get_next_state with
    | some nxt =>
      rw [hnxt] at ht
      simp only [List.mem_append, List.mem_singleton] at ht
      rcases ht with h | h
      · exact Or.inl h
      · subst h
        exact Or.inr (get_next_state_layer curr t hnxt)
    | none =>
      rw [hnxt] at ht
      simp only [List.mem_append, List.mem_cons, List.mem_singleton,
        List.not_mem_nil, or_false] at ht
      rcases ht with h | h | h
      · exact Or.inl h
      · subst h
        exact Or.inr rfl
      · subst h
        exact Or.inr rfl

/-- Witness for C6: stepping the ambiguous state `(3, 2)` at depth `5`
yields a frontier whose members all have depth `6`. -/
theorem depth_plus_one_witness :
    childA ⟨3, 2, "ROOT", 5⟩ ∈ (stepTrav ⟨[⟨3, 2, "ROOT", 5⟩], 0, 0, 0⟩).queue ∧
    (([] : List MaporaStack) = [] ∨ (childA ⟨3, 2, "ROOT", 5⟩).layer = 5 + 1) := by
  constructor
  · decide
  · have h := depth_plus_one ⟨3, 2, "ROOT", 5⟩ [] 0 0 0
      (childA ⟨3, 2, "ROOT", 5⟩) (by decide)
    rcases h with h | h
    · exact absurd h (by decide)
    · exact Or.inr h

/-- One traversal step never decreases any of the three counters. -/
theorem stepTrav_counters_le (s : TravState) :
    s.straight_paths ≤ (stepTrav s).straight_paths
  ∧ s.splits ≤ (stepTrav s).splits
  ∧ s.nodes ≤ (stepTrav s).nodes := by
  rcases s with ⟨q, a, b, c⟩
  cases q with
  | nil => simp [stepTrav]
  | cons curr rest =>
    by_cases hterm : curr.r = 1 ∧ curr.m % 2 = 0
    · simp [stepTrav, hterm]
    · simp only [stepTrav, if_neg hterm]
      cases curr.get_next_state <;> simp

/-- The whole loop never decreases any of the three counters. -/
theorem runLoop_counters_le (fuel : Nat) :
    ∀ (budget : Int) (s : TravState),
      s.straight_paths ≤ (runLoop fuel budget s).straight_paths
    ∧ s.splits ≤ (runLoop fuel budget s).splits
    ∧ s.nodes ≤ (runLoop fuel budget s).nodes := by
  induction fuel with
  | zero =>
    intro budget s
    exact ⟨le_refl _, le_refl _, le_refl _⟩
  | succ fuel ih =>
    intro budget s
    unfold runLoop
    by_cases hc : s.queue ≠ [] ∧ (s.nodes : Int) < budget
    · rw [if_pos hc]
      have h1 := stepTrav_counters_le s
      have h2 := ih budget (stepTrav s)
      exact ⟨le_trans h1.1 h2.1, le_trans h1.2.1 h2.2.1,
        le_trans h1.2.2 h2.2.2⟩
    · rw [if_neg hc]
      exact ⟨le_refl _, le_refl _, le_refl _⟩

/-- C8: the counters `straight_paths`, `splits`, `nodes` are natural
numbers (hence non-negative) and are monotone under a single iteration
and under the whole loop. -/
theorem counters_monotone (s : TravState) (fuel : Nat) (budget : Int) :
    (s.straight_paths ≤ (stepTrav s).straight_paths
      ∧ s.splits ≤ (stepTrav s).splits
      ∧ s.nodes ≤ (stepTrav s).nodes)
  ∧ (s.straight_paths ≤ (runLoop fuel budget s).straight_paths
      ∧ s.splits ≤ (runLoop fuel budget s).splits
      ∧ s.nodes ≤ (runLoop fuel budget s).nodes) :=
  ⟨stepTrav_counters_le s, runLoop_counters_le fuel budget s⟩

/-- C9: the stability-ratio computation is deterministic — equal
arguments give equal results (it is a pure function of its inputs). -/
theorem stability_ratio_deterministic (m₁ r₁ : Nat) (b₁ : Int)
    (m₂ r₂ : Nat) (b₂ : Int) (hm : m₁ = m₂) (hr : r₁ = r₂)
    (hb : b₁ = b₂) :
    get_stability_ratio m₁ r₁ b₁ = get_stability_ratio m₂ r₂ b₂ := by
  subst hm
  subst hr
  subst hb
  rfl

/-- Witness for C9 at two equal invocations of `(32, 16, 400)`. -/
theorem stability_ratio_deterministic_witness :
    get_stability_ratio 32 16 400 = get_stability_ratio 32 16 400 :=
  stability_ratio_deterministic 32 16 400 32 16 400 rfl rfl rfl

/-- C10: a non-positive budget yields no iterations at all — the final
traversal state is the initial one, all counters are `0` — and the
ratio is the sentinel `50`, with no error signalled. -/
theorem nonpositive_budget (m r : Nat) (b : Int) (h : b ≤ 0) :
    runTraversal m r b = initState m r
  ∧ (runTraversal m r b).nodes = 0
  ∧ (runTraversal m r b).straight_paths = 0
  ∧ (runTraversal m r b).splits = 0
  ∧ get_stability_ratio m r b = 50 := by
  have hfuel : b.toNat = 0 := by omega
  have hrun : runTraversal m r b = initState m r := by
    unfold runTraversal
    rw [hfuel]
    rfl
  refine ⟨hrun, ?_, ?_, ?_, ?_⟩
  · rw [hrun]
    rfl
  · rw [hrun]
    rfl
  · rw [hrun]
    rfl
  · simp [get_stability_ratio, hrun, initState]

/-- Witness for C10 at budget `-3`. -/
theorem nonpositive_budget_witness :
    (-3 : Int) ≤ 0 ∧ get_stability_ratio 5 7 (-3) = 50 :=
  ⟨by decide, (nonpositive_budget 5 7 (-3) (by decide)).2.2.2.2⟩
